import Mathlib

/-!
Shallow embedding of the epub2MD parser core (src/parseEpub.ts) in Lean 4.

The parsed-markup object trees that the TypeScript code manipulates are
modelled by the inductive `JVal` (JavaScript values as produced by the
markup-to-object collaborator: strings, numbers, objects, arrays, and
`undefined`).  Property access, array indexing, truthiness and the
lodash-replacement `get` are embedded with JavaScript semantics; code paths
that would raise a `TypeError` at runtime are embedded in the `Except`
monad.  The collaborators that are not part of this repository's `src/`
snapshot (`parseLink`, `determineRoot`, the markup-to-object converter, the
section builder, and the JS builtin `decodeURI`) are modelled from the
specification, as marked on each of their doc comments.
-/

namespace EpubMD

/-- JavaScript values as they appear in the parsed-markup object trees. -/
inductive JVal where
  | undefVal : JVal
  | str : String → JVal
  | num : Int → JVal
  | obj : List (String × JVal) → JVal
  | arr : List JVal → JVal

mutual

/-- Size of a parsed-markup value (used as a fuel bound for traversals
that descend the tree). -/
def jsize : JVal → Nat
  | .undefVal => 1
  | .str _ => 1
  | .num _ => 1
  | .obj kvs => 1 + jsizeP kvs
  | .arr l => 1 + jsizeL l

/-- Size of an array's elements. -/
def jsizeL : List JVal → Nat
  | [] => 0
  | x :: xs => jsize x + jsizeL xs

/-- Size of an object's property values. -/
def jsizeP : List (String × JVal) → Nat
  | [] => 0
  | (_, v) :: ps => jsize v + jsizeP ps

end

/-- First binding of a key in a JS object's property list. -/
def lookupJ : List (String × JVal) → String → Option JVal
  | [], _ => none
  | (k, v) :: rest, key => if k == key then some v else lookupJ rest key

/-- Whether a value is JS `undefined`. -/
def JVal.isUndef : JVal → Bool
  | .undefVal => true
  | _ => false

/-- Safe JS property access `v[k]` for `v` known not to be `undefined`
(objects yield the bound value or `undefined`; primitives and arrays yield
`undefined` for the string keys the source uses).  On `undefined` it returns
`undefined`, which models the short-circuit of an optional chain `v?.[k]`;
the throwing form of plain access is `jsAccess`. -/
def jidx : JVal → String → JVal
  | .obj kvs, k => (lookupJ kvs k).getD .undefVal
  | _, _ => .undefVal

/-- Numeric indexing `v[n]` for non-`undefined` `v` (arrays index their
elements, objects look up the decimal key, single characters of strings are
returned as in JS); `undefined` input models an optional chain short
circuit. -/
def jat : JVal → Nat → JVal
  | .arr l, n => (l.get? n).getD .undefVal
  | .obj kvs, n => (lookupJ kvs (toString n)).getD .undefVal
  | .str s, n => match s.data.get? n with
    | some c => .str (String.mk [c])
    | none => .undefVal
  | _, _ => .undefVal

/-- Throwing JS property access `v.k`: a `TypeError` when `v` is
`undefined`, otherwise `jidx`. -/
def jsAccess (v : JVal) (k : String) : Except String JVal :=
  match v with
  | .undefVal => .error ("TypeError: cannot read properties of undefined (reading " ++ k ++ ")")
  | _ => .ok (jidx v k)

/-- Throwing JS numeric indexing `v[n]`. -/
def jsAt (v : JVal) (n : Nat) : Except String JVal :=
  match v with
  | .undefVal => .error "TypeError: cannot read properties of undefined (indexing)"
  | _ => .ok (jat v n)

/-- The lodash-replacement `get(obj, path, defaultValue)` of parseEpub.ts:
walks the path, returning the default as soon as the current value is
null/undefined, and applies `?? defaultValue` to the final result. -/
def getPath (v : JVal) (path : List String) (dflt : JVal) : JVal :=
  match path with
  | [] => if v.isUndef then dflt else v
  | k :: ks => if v.isUndef then dflt else getPath (jidx v k) ks dflt

/-- JS truthiness of the modelled values. -/
def truthy : JVal → Bool
  | .undefVal => false
  | .str s => s ≠ ""
  | .num n => n ≠ 0
  | .obj _ => true
  | .arr _ => true

/-- JS string coercion (template literals, object keys).  Arrays coerce to
the comma-join of their elements in JS; the code under proof only ever
coerces strings, so the array/object cases are schematic. -/
def jvalToStr : JVal → String
  | .undefVal => "undefined"
  | .str s => s
  | .num n => toString n
  | .arr _ => ""
  | .obj _ => "[object Object]"

/-- Equality test `v === s` between a JS value and a string literal. -/
def jeqStr (v : JVal) (s : String) : Bool :=
  match v with
  | .str t => t == s
  | _ => false

/-- List of results of a fallible map, stopping at the first raised error
(JS `Array.prototype.map` with an exception escaping the callback). -/
def mapE (f : α → Except String β) : List α → Except String (List β)
  | [] => .ok []
  | x :: xs =>
    match f x with
    | .error e => .error e
    | .ok y =>
      match mapE f xs with
      | .error e => .error e
      | .ok ys => .ok (y :: ys)

/-! Character-list helpers used by the link-name normalization. -/

/-- Characters of `l` strictly before the first occurrence of `c`. -/
def upToFirst (c : Char) : List Char → List Char
  | [] => []
  | x :: xs => if x = c then [] else x :: upToFirst c xs

/-- Characters of `l` strictly after the first occurrence of `c`
(empty when `c` does not occur). -/
def afterFirst (c : Char) : List Char → List Char
  | [] => []
  | x :: xs => if x = c then xs else afterFirst c xs

/-- Last `/`-separated segment of a character list. -/
def lastSeg (l : List Char) : List Char :=
  (l.reverse.takeWhile (fun c => c ≠ '/')).reverse

/-- Result shape of the link parser: base file name and fragment. -/
structure LinkParts where
  name : String
  hash : String
deriving DecidableEq

/-- Modelled from the spec: `parseLink` (src/parseLink.ts, not under
`src/`).  Per §4.3 and the glossary, it strips any fragment (`#...`) from
the href, extracts the path's base name (ignoring directory and fragment),
and reports the fragment (the portion after `#`) separately. -/
def parseLink (href : String) : LinkParts :=
  let cs := href.data
  { name := String.mk (lastSeg (upToFirst '#' cs))
  , hash := String.mk (afterFirst '#' cs) }

/-- Base name of a link after fragment stripping (the normalization key the
Link Resolver compares on). -/
def linkName (href : String) : String :=
  (parseLink href).name

/-- A manifest entry as built by `getManifest`: the raw `@href` and `@id`
attribute values. -/
structure ManifestItem where
  href : JVal
  id : JVal

/-- The Link Resolver `_resolveIdFromLink`: scans the manifest for the
first item whose fragment-stripped base name matches the query's, returning
its id, with `?? ''` turning an undefined id (or a miss) into the empty
string. -/
def resolveIdFromLink (man : List ManifestItem) (href : String) : JVal :=
  match man.find? (fun item => linkName (jvalToStr item.href) == linkName href) with
  | some item => if item.id.isUndef then .str "" else item.id
  | none => .str ""

/-! Archive accessor. -/

/-- Hexadecimal digit value. -/
def hexVal (c : Char) : Option Nat :=
  if '0' ≤ c ∧ c ≤ '9' then some (c.toNat - '0'.toNat)
  else if 'a' ≤ c ∧ c ≤ 'f' then some (c.toNat - 'a'.toNat + 10)
  else if 'A' ≤ c ∧ c ≤ 'F' then some (c.toNat - 'A'.toNat + 10)
  else none

/-- Code points whose escapes `decodeURI` leaves untouched
(`# $ & + , / : ; = ? @`). -/
def uriReserved (n : Nat) : Bool :=
  n = 35 ∨ n = 36 ∨ n = 38 ∨ n = 43 ∨ n = 44 ∨ n = 47 ∨
  n = 58 ∨ n = 59 ∨ n = 61 ∨ n = 63 ∨ n = 64

/-- Modelled from the spec: the JS builtin `decodeURI` applied before the
archive lookup (§4.1, "the resulting path is URI-decoded before lookup").
Percent escapes are decoded bytewise except for the reserved set, which
`decodeURI` leaves escaped; malformed escapes are carried through verbatim
(real `decodeURI` raises a `URIError` there; no archive path under proof is
malformed). -/
def decodeURIChars : List Char → List Char
  | '%' :: a :: b :: rest =>
    match hexVal a, hexVal b with
    | some x, some y =>
      let n := 16 * x + y
      if uriReserved n then '%' :: a :: b :: decodeURIChars rest
      else Char.ofNat n :: decodeURIChars rest
    | _, _ => '%' :: decodeURIChars (a :: b :: rest)
  | c :: rest => c :: decodeURIChars rest
  | [] => []

/-- String-level wrapper of `decodeURIChars`. -/
def decodeURI (s : String) : String :=
  String.mk (decodeURIChars s.data)

/-- An in-memory archive: entry path to entry text. -/
def Archive := List (String × String)

/-- First archive entry whose path equals `p` (text content). -/
def findEntry (zip : Archive) (p : String) : Option String :=
  (List.find? (fun e => e.1 == p) zip).map (fun e => e.2)

/-- The path the Archive Accessor actually resolves: a leading separator
makes the path archive-root-relative (separator stripped), otherwise the
content root is prefixed (`path[0] === '/' ? path.substring(1) : this._root + path`). -/
def resolveTarget (root path : String) : String :=
  match path.data with
  | '/' :: rest => String.mk rest
  | _ => root ++ path

/-- The Archive Accessor `resolve`: root handling, URI-decoding, entry
lookup, and the not-found error carrying the resolved (undecoded) path. -/
def resolve (zip : Archive) (root path : String) : Except String String :=
  let target := resolveTarget root path
  match findEntry zip (decodeURI target) with
  | some text => .ok text
  | none => .error (target ++ " not found!")

/-! Package document parser. -/

/-- The Package Document Parser's manifest extraction `getManifest`: maps
the package's item list to `{href, id}` records.  Note that — unlike
`getSpine` below — the source calls `.map` directly on
`get(content, ['package','manifest','item'], [])` without an
`Array.isArray` normalization, so a single item parsed as a bare object
raises a `TypeError` instead of being wrapped in a one-element array. -/
def getManifest (content : JVal) : Except String (List ManifestItem) :=
  match getPath content ["package", "manifest", "item"] (.arr []) with
  | .arr items =>
    mapE (fun item => do
      let h ← jsAccess item "@href"
      let i ← jsAccess item "@id"
      pure (⟨h, i⟩ : ManifestItem)) items
  | _ => .error "TypeError: items.map is not a function"

/-- The spine as built by `getSpine`: a JS plain-object literal mapping a
manifest id to its zero-based reading-order index, modelled as the list of
its own properties in insertion order.  The JS object quirks — the
inherited `__proto__` setter on writes, the `Object.prototype` members on
reads, and the array-index-first ordering of `Object.keys` — are modelled
by `oset`, `oget` and `okeys` below. -/
abbrev SpineMap := List (String × Nat)

/-- JS object property assignment `m[k] = v`: assigning to `__proto__`
invokes the inherited accessor (a no-op for a number value) and creates no
own property; otherwise the binding is updated in place when the key
exists, or appended (preserving key insertion order). -/
def oset (m : SpineMap) (k : String) (v : Nat) : SpineMap :=
  if k == "__proto__" then m
  else if m.any (fun p => p.1 == k) then
    m.map (fun p => if p.1 == k then (k, v) else p)
  else m ++ [(k, v)]

/-- Own-property lookup of the modelled spine object (first binding). -/
def ogetOwn (m : SpineMap) (k : String) : Option Nat :=
  (List.find? (fun p => p.1 == k) m).map (fun p => p.2)

/-- The property names a plain object literal inherits from
`Object.prototype`: reading them on a spine with no own binding of that
name yields the inherited function/object, not `undefined`. -/
def protoMember (k : String) : Bool :=
  k == "__proto__" || k == "constructor" || k == "hasOwnProperty" ||
  k == "isPrototypeOf" || k == "propertyIsEnumerable" || k == "toLocaleString" ||
  k == "toString" || k == "valueOf" || k == "__defineGetter__" ||
  k == "__defineSetter__" || k == "__lookupGetter__" || k == "__lookupSetter__"

/-- Result of the JS property read `spine[id]`: an own numeric binding, a
value inherited from `Object.prototype` (a function or object — in
particular neither `undefined` nor `-1`), or `undefined`. -/
inductive SpineVal where
  | idx : Nat → SpineVal
  | inherited : SpineVal
  | missing : SpineVal
deriving DecidableEq

/-- JS object property read `m[k]`: the own binding when present,
otherwise the prototype chain. -/
def oget (m : SpineMap) (k : String) : SpineVal :=
  match ogetOwn m k with
  | some n => .idx n
  | none => if protoMember k then .inherited else .missing

/-- The own property names of the modelled spine in insertion order. -/
def rawKeys (m : SpineMap) : List String :=
  m.map (fun p => p.1)

/-- Numeric value of a digit string. -/
def strToNat (s : String) : Nat :=
  s.data.foldl (fun acc c => acc * 10 + (c.toNat - '0'.toNat)) 0

/-- Whether a property name is an array-index key (a canonical decimal
numeral below `2^32 - 1`): `Object.keys` enumerates these first, in
ascending numeric order, ahead of the other own keys. -/
def isArrayIndex (s : String) : Bool :=
  !(s == "") && s.data.all (fun c => c.isDigit) &&
  (s == "0" || s.data.head? != some '0') &&
  strToNat s < 4294967295

/-- Insertion step of the numeric sort of array-index keys. -/
def insertByVal (x : String) : List String → List String
  | [] => [x]
  | y :: ys => if strToNat x ≤ strToNat y then x :: y :: ys else y :: insertByVal x ys

/-- Ascending numeric sort of array-index keys. -/
def sortByVal : List String → List String
  | [] => []
  | x :: xs => insertByVal x (sortByVal xs)

/-- JS `Object.keys` of the modelled spine object: array-index keys first
in ascending numeric order, then the remaining own keys in insertion
order. -/
def okeys (m : SpineMap) : List String :=
  sortByVal ((rawKeys m).filter (fun k => isArrayIndex k)) ++
    (rawKeys m).filter (fun k => !isArrayIndex k)

/-- The loop body of `getSpine`: `itemRefs.map((item, i) => spine[item['@idref']] = i)`. -/
def buildSpine : List JVal → Nat → SpineMap → Except String SpineMap
  | [], _, m => .ok m
  | item :: rest, i, m => do
    let k ← jsAccess item "@idref"
    buildSpine rest (i + 1) (oset m (jvalToStr k) i)

/-- The Package Document Parser's spine extraction `getSpine`: reads the
package's item-reference list, normalizes a single reference to a
one-element array, and assigns indices in declaration order. -/
def getSpine (content : JVal) : Except String SpineMap :=
  let itemRefs :=
    match getPath content ["package", "spine", "itemref"] (.arr []) with
    | .arr l => l
    | v => [v]
  buildSpine itemRefs 0 []

/-- Reference fold for the spine built from a plain list of idref strings:
`spine[ids[k]] = i + k` for each position `k`. -/
def spineAux : List String → Nat → SpineMap → SpineMap
  | [], _, m => m
  | x :: xs, i, m => spineAux xs (i + 1) (oset m x i)

/-- A package document whose spine item-reference list binds exactly the
given idrefs, in order. -/
def mkSpineContent (ids : List String) : JVal :=
  .obj [("package", .obj [("spine", .obj [("itemref",
    .arr (ids.map (fun s => .obj [("@idref", .str s)])))])])]

/-! Metadata extractor. -/

/-- The metadata record after `pickBy`: only genuinely present fields are
kept (`none` = key absent from the output object). -/
structure MetaInfo where
  title : Option JVal := none
  author : Option (List JVal) := none
  description : Option JVal := none
  language : Option JVal := none
  publisher : Option JVal := none
  rights : Option JVal := none

/-- Whether the head of a JS array is `undefined` (`v[0] !== undefined`
test of the `pickBy` predicate, negated). -/
def headUndef : List JVal → Bool
  | v :: _ => v.isUndef
  | [] => true

/-- The `pickBy` step of `parseMetadata`: a scalar field is kept when it
is not undefined, and the author array is kept when it is non-empty with a
defined first element. -/
def metaRecord (titleV : JVal) (authorList : List JVal)
    (descV langV pubV rightsV : JVal) : MetaInfo :=
  { title := if titleV.isUndef then none else some titleV
  , author := if authorList.isEmpty || headUndef authorList then none else some authorList
  , description := if descV.isUndef then none else some descV
  , language := if langV.isUndef then none else some langV
  , publisher := if pubV.isUndef then none else some pubV
  , rights := if rightsV.isUndef then none else some rightsV }

/-- The Metadata Extractor `parseMetadata`: per-field extraction (author
collected into an array from one or many `dc:creator` values via their
`#text` payloads — a single non-array creator is wrapped in a one-element
array —, description from the nested `['description','_']` path, the rest
as flat `dc:`-prefixed scalars) followed by the `pickBy` (`metaRecord`)
that drops absent fields, empty author arrays, and author arrays whose
first element is undefined. -/
def parseMetadata (meta : JVal) : Except String MetaInfo :=
  let titleV := getPath meta ["dc:title"] .undefVal
  let descV := getPath meta ["description", "_"] .undefVal
  let langV := getPath meta ["dc:language"] .undefVal
  let pubV := getPath meta ["dc:publisher"] .undefVal
  let rightsV := getPath meta ["dc:rights"] .undefVal
  match (match getPath meta ["dc:creator"] (.arr []) with
    | .arr l => mapE (fun a => jsAccess a "#text") l
    | v => .ok [jidx v "#text"]) with
  | .error e => .error e
  | .ok authorList => .ok (metaRecord titleV authorList descV langV pubV rightsV)

/-! Section resolver. -/

/-- Modelled from the spec: the section-building collaborator
(src/parseSection.ts, not under `src/`).  Per §3 a Section carries the
manifest id and the raw markup; the parsed content is a deterministic
function of the raw markup, and the resource/id resolvers, `expand` flag
and markdown hook only affect derived content, so content equality of
sections is equality of `(id, htmlString)`. -/
structure Section where
  id : String
  htmlString : String

/-- Modelled from the spec: the `parseSection` collaborator entry point,
building a Section from the id and the fetched markup text. -/
def parseSection (id : String) (htmlString : String) : Section :=
  ⟨id, htmlString⟩

/-- Order-preserving de-duplication with an accumulator of already seen
elements. -/
def dedupAux : List String → List String → List String
  | [], _ => []
  | x :: xs, seen =>
    if x ∈ seen then dedupAux xs seen
    else x :: dedupAux xs (x :: seen)

/-- Order-preserving de-duplication: `[...new Set(l)]` keeps the first
occurrence of each element. -/
def dedupFirst (l : List String) : List String :=
  dedupAux l []

/-- The per-item body of `_resolveSections`: locate the manifest item of
`id` (the non-null assertion `item!.href` raises a `TypeError` when the id
is not in the manifest), fetch its text through the Archive Accessor, and
hand the pair to the section builder. -/
def resolveSection (zip : Archive) (root : String) (man : List ManifestItem)
    (id : String) : Except String Section :=
  match man.find? (fun m => jeqStr m.id id) with
  | none => .error "TypeError: cannot read properties of undefined (reading href)"
  | some item =>
    match resolve zip root (jvalToStr item.href) with
    | .error e => .error e
    | .ok html => .ok (parseSection id html)

/-- The Section Resolver `_resolveSections`: eagerly over the distinct
spine keys (`[...new Set(Object.keys(this._spine))]`), or over the single
requested id when one is given. -/
def resolveSections (zip : Archive) (root : String) (man : List ManifestItem)
    (spine : SpineMap) (idOpt : Option String) : Except String (List Section) :=
  let list :=
    match idOpt with
    | some id => [id]
    | none => dedupFirst (okeys spine)
  mapE (resolveSection zip root man) list

/-- The lookup `getSection`: a spine id returns the eagerly resolved
section at its spine index; an id whose read `this._spine[id]` is
`undefined` falls back to resolving that single id
(`this._resolveSections(id)[0]`).  The `sectionIndex = -1` initialization
is only reachable when the spine itself is absent (then the method returns
null), and the `sectionIndex != -1` guard is vacuous for an index read
from the spine, which holds only non-negative values.  For an id naming an
`Object.prototype` member, the read yields the inherited function: it is
not `=== undefined` (so the fallback is skipped) and not `!= -1`-equal to
`-1`, and indexing the sections array with it yields `undefined`. -/
def getSection (zip : Archive) (root : String) (man : List ManifestItem)
    (spineOpt : Option SpineMap) (sectionsOpt : Option (List Section))
    (id : String) : Except String (Option Section) :=
  match spineOpt with
  | none => .ok none
  | some spine =>
    match oget spine id with
    | .missing => (resolveSections zip root man spine (some id)).map (fun l => l.head?)
    | .idx n =>
      .ok (match sectionsOpt with
        | none => none
        | some secs => secs.get? n)
    | .inherited => .ok none

/-! TOC builder. -/

/-- The uniform outline node (`TOCItem`) both schemas normalize into.  In
the source, `playOrder` is a number for Schema B (HTML) and the raw
`@playOrder` attribute value for Schema A (NCX); name/path/ids carry raw
parsed-markup values, so the fields are `JVal`. -/
structure TOCItem where
  name : JVal
  sectionId : JVal
  nodeId : JVal
  path : JVal
  playOrder : JVal
  children : Option (List TOCItem)

/-- Schema B (nested-list HTML) traversal: the body of
`parseHTMLNavPoints`/`parseOuterHTML` with the shared mutable
`runningIndex` threaded explicitly (`idx`).  The node captures `playOrder`
at entry, recurses into its `ol[0].li` children, and only then increments
the counter (`runningIndex++` sits after the recursive call in the
source).  The recursion descends strictly into the object tree; the `fuel`
argument (instantiated with the tree size plus one, and decremented on
every call) makes it structural, so exhaustion is unreachable. -/
def htmlPoints (man : List ManifestItem) :
    Nat → List JVal → Nat → Except String (List TOCItem × Nat)
  | _, [], idx => .ok ([], idx)
  | 0, _ :: _, _ => .error "fuel exhausted (unreachable: the traversal descends the tree)"
  | fuel + 1, navPoint :: rest, idx => do
    let a ← jsAccess navPoint "a"
    let a0 ← jsAt a 0
    let element := if truthy a0 then a0 else .obj []
    let dollar ← jsAccess element "$"
    let path ← jsAccess dollar "href"
    let rawName := jidx element "_"
    let spanV := jidx element "span"
    let name ←
      if truthy spanV then
        match spanV with
        | .arr ps => do
          let texts ← mapE (fun p => jsAccess p "_") ps
          pure (JVal.str (String.join (texts.map jvalToStr) ++ jvalToStr rawName))
        | _ => .error "TypeError: span.map is not a function"
      else pure rawName
    let sectionId := resolveIdFromLink man (jvalToStr path)
    let nodeId := JVal.str (parseLink (jvalToStr path)).hash
    let playOrder := idx
    let c3 := jidx (jat (jidx navPoint "ol") 0) "li"
    let state ←
      if truthy c3 then
        match c3 with
        | .arr l => do
          let (cs, i) ← htmlPoints man fuel l idx
          pure (some cs, i)
        | _ => (.error "TypeError: children.map is not a function" :
            Except String (Option (List TOCItem) × Nat))
      else pure (none, idx)
    let (childrenOpt, idx1) := state
    let (restItems, idxF) ← htmlPoints man fuel rest (idx1 + 1)
    pure (⟨name, sectionId, nodeId, path, .num playOrder, childrenOpt⟩ :: restItems, idxF)

/-- Schema B entry point `_genStructureForHTML`: extracts the root list
`tocObj.html.body[0].nav[0]['ol'][0].li` (throwing on any undefined link of
the chain), and maps it with the running counter started at 1. -/
def genStructureForHTML (man : List ManifestItem) (tocObj : JVal) :
    Except String (List TOCItem) := do
  let h ← jsAccess tocObj "html"
  let b ← jsAccess h "body"
  let b0 ← jsAt b 0
  let nav ← jsAccess b0 "nav"
  let nav0 ← jsAt nav 0
  let ol ← jsAccess nav0 "ol"
  let ol0 ← jsAt ol 0
  let li ← jsAccess ol0 "li"
  match li with
  | .arr l => do
    let (items, _) ← htmlPoints man (jsize tocObj + 1) l 1
    pure items
  | _ => .error "TypeError: tocRoot.map is not a function"

/-- Schema A (NCX) traversal: the body of `parseNavPoint`/`parseNavPoints`.
Each node takes its path, label and explicit `@playOrder` through the safe
accessor, recurses into its nested `navPoint` children (a single child
object is wrapped into a one-element array), and falls back from the link's
fragment to the node's own `@id` for the node identifier.  Fuel as in
`htmlPoints`. -/
def ncxList (man : List ManifestItem) :
    Nat → List JVal → Except String (List TOCItem)
  | _, [] => .ok []
  | 0, _ :: _ => .error "fuel exhausted (unreachable: the traversal descends the tree)"
  | fuel + 1, p :: rest => do
    let path := getPath p ["content", "@src"] (.str "")
    let name := getPath p ["navLabel", "text"] .undefVal
    let playOrder := getPath p ["@playOrder"] .undefVal
    let hash := (parseLink (jvalToStr path)).hash
    let childrenV ← jsAccess p "navPoint"
    let childrenOpt ←
      if truthy childrenV then do
        let cs ← ncxList man fuel (match childrenV with | .arr l => l | w => [w])
        pure (some cs)
      else pure none
    let sectionId := resolveIdFromLink man (jvalToStr path)
    let nodeId ← if hash ≠ "" then pure (JVal.str hash) else jsAccess p "@id"
    let restItems ← ncxList man fuel rest
    pure (⟨name, sectionId, nodeId, path, playOrder, childrenOpt⟩ :: restItems)

/-- The schema dispatch `_genStructure`: the presence (truthiness) of an
`html` root selects Schema B, otherwise the NCX navigation map is walked
(with the `get` default making a missing map an empty outline). -/
def genStructure (man : List ManifestItem) (tocObj : JVal) :
    Except String (List TOCItem) := do
  let h ← jsAccess tocObj "html"
  if truthy h then genStructureForHTML man tocObj
  else
    let rootNavPoints := getPath tocObj ["ncx", "navMap", "navPoint"] (.arr [])
    ncxList man (jsize tocObj + 1)
      (match rootNavPoints with | .arr l => l | w => [w])

/-! Document facade. -/

/-- Modelled from the spec: `determineRoot` (src/utils.ts, not under
`src/`).  Per §4.2 the content root is the directory portion of the
package document's own path (with its trailing separator; empty when the
package document sits at the archive root). -/
def determineRoot (opfPath : String) : String :=
  String.mk ((opfPath.data.reverse.dropWhile (fun c => c ≠ '/')).reverse)

/-- The bootstrap step `_getOpfPath`: resolve the fixed descriptor
`/META-INF/container.xml`, parse it with the markup-to-object collaborator
`xmlToJson`, and read `container.rootfiles.rootfile['@full-path']` with
plain (throwing) property accesses.  The result is coerced to a string as
the caller's `'/' + this._opfPath` does. -/
def getOpfPath (zip : Archive) (xmlToJson : String → JVal) : Except String String := do
  let containerText ← resolve zip "undefined" "/META-INF/container.xml"
  let c := xmlToJson containerText
  let v1 ← jsAccess c "container"
  let v2 ← jsAccess v1 "rootfiles"
  let v3 ← jsAccess v2 "rootfile"
  let fp ← jsAccess v3 "@full-path"
  pure (jvalToStr fp)

/-- The completed document: the fields `parse()` populates before
returning.  The record is only built after every stage of the staged build
has succeeded, so success values are never partially populated. -/
structure Doc where
  opfPath : String
  root : String
  manifest : List ManifestItem
  spine : SpineMap
  tocFile : JVal
  outline : Option (List TOCItem)
  info : MetaInfo
  sections : List Section

/-- The navigation-file lookup of `parse()`:
`(this._manifest?.find(m => m.id === 'ncx') || {}).href` — the href of the
first manifest item whose id is exactly the string `ncx`, or `undefined`
when there is none. -/
def tocFileOf (manifest : List ManifestItem) : JVal :=
  match manifest.find? (fun m => jeqStr m.id "ncx") with
  | some m => m.href
  | none => JVal.undefVal

/-- The conditional TOC build of `parse()`: only a truthy `tocFile` is
resolved (relative to the content root) and handed to the TOC builder;
otherwise the outline stays absent. -/
def buildOutline (zip : Archive) (xmlToJson : String → JVal) (root : String)
    (manifest : List ManifestItem) (tocFile : JVal) :
    Except String (Option (List TOCItem)) :=
  if truthy tocFile then do
    let tocText ← resolve zip root (jvalToStr tocFile)
    let s ← genStructure manifest (xmlToJson tocText)
    pure (some s)
  else pure none

/-- The Document Facade `parse()`: the staged build in source order —
package-document location and parse, content root, manifest, raw metadata,
`ncx`-id navigation-file lookup with conditional TOC build (guarded by the
truthiness of the found item's href), spine, metadata extraction, and eager
section resolution.  Any raised error unwinds to this top level; the
markup-to-object collaborator is a parameter, per §6.  The source stores
the outline in a field named `structure` (a reserved word here, hence
`outline`).  The absolute bootstrap paths ignore the not-yet-assigned
root (`this._root` is `undefined` at that point). -/
def parseEpubDoc (zip : Archive) (xmlToJson : String → JVal) : Except String Doc := do
  let opfPath ← getOpfPath zip xmlToJson
  let contentText ← resolve zip "undefined" ("/" ++ opfPath)
  let content := xmlToJson contentText
  let root := determineRoot opfPath
  let manifest ← getManifest content
  let metadata := getPath content ["package", "metadata"] (.obj [])
  let tocFile := tocFileOf manifest
  let outlineOpt ← buildOutline zip xmlToJson root manifest tocFile
  let spine ← getSpine content
  let info ← parseMetadata metadata
  let sections ← resolveSections zip root manifest spine none
  pure
    { opfPath := opfPath, root := root, manifest := manifest, spine := spine
    , tocFile := tocFile, outline := outlineOpt, info := info, sections := sections }

/-! Concrete containers used to exercise the embedding. -/

/-- Parsed bootstrap descriptor of the example container: package document
at `OEBPS/content.opf`. -/
def eContainerObj : JVal :=
  .obj [("container", .obj [("rootfiles", .obj [("rootfile",
    .obj [("@full-path", .str "OEBPS/content.opf")])])])]

/-- Parsed package document of the example container: three manifest items
(two chapters and the NCX), a two-entry spine, and a metadata block with a
title and a single creator. -/
def eOpfObj : JVal :=
  .obj [("package", .obj
    [ ("manifest", .obj [("item", .arr
        [ .obj [("@id", .str "chap1"), ("@href", .str "Text/chap1.xhtml")]
        , .obj [("@id", .str "chap2"), ("@href", .str "Text/chap2.xhtml")]
        , .obj [("@id", .str "ncx"), ("@href", .str "toc.ncx")]])])
    , ("spine", .obj [("itemref", .arr
        [ .obj [("@idref", .str "chap1")]
        , .obj [("@idref", .str "chap2")]])])
    , ("metadata", .obj
        [ ("dc:title", .str "T")
        , ("dc:creator", .obj [("#text", .str "A")])])])]

/-- Parsed NCX of the example container: one navigation point. -/
def eNcxObj : JVal :=
  .obj [("ncx", .obj [("navMap", .obj [("navPoint", .arr
    [ .obj
        [ ("content", .obj [("@src", .str "Text/chap1.xhtml")])
        , ("navLabel", .obj [("text", .str "One")])
        , ("@playOrder", .str "1")
        , ("@id", .str "np1")]])])])]

/-- Markup-to-object collaborator of the example container. -/
def eXml : String → JVal := fun t =>
  if t == "CONTAINER" then eContainerObj
  else if t == "OPF" then eOpfObj
  else if t == "NCX" then eNcxObj
  else .undefVal

/-- The example archive. -/
def eZip : Archive :=
  [ ("META-INF/container.xml", "CONTAINER")
  , ("OEBPS/content.opf", "OPF")
  , ("OEBPS/toc.ncx", "NCX")
  , ("OEBPS/Text/chap1.xhtml", "HTML1")
  , ("OEBPS/Text/chap2.xhtml", "HTML2")]

/-- The document the example container parses to. -/
def eDoc : Doc :=
  { opfPath := "OEBPS/content.opf"
  , root := "OEBPS/"
  , manifest :=
      [ ⟨.str "Text/chap1.xhtml", .str "chap1"⟩
      , ⟨.str "Text/chap2.xhtml", .str "chap2"⟩
      , ⟨.str "toc.ncx", .str "ncx"⟩]
  , spine := [("chap1", 0), ("chap2", 1)]
  , tocFile := .str "toc.ncx"
  , outline := some
      [⟨.str "One", .str "chap1", .str "np1", .str "Text/chap1.xhtml", .str "1", none⟩]
  , info := { title := some (.str "T"), author := some [.str "A"] }
  , sections := [⟨"chap1", "HTML1"⟩, ⟨"chap2", "HTML2"⟩] }

example : parseEpubDoc eZip eXml = .ok eDoc := rfl

/-- Parsed bootstrap descriptor of the empty-href container: package
document at the archive root. -/
def cContainerObj : JVal :=
  .obj [("container", .obj [("rootfiles", .obj [("rootfile",
    .obj [("@full-path", .str "pkg.opf")])])])]

/-- Parsed package document of the empty-href container: a single-element
manifest item array whose only item has id `ncx` and an empty href, no
spine and no metadata. -/
def cOpfObj : JVal :=
  .obj [("package", .obj [("manifest", .obj [("item", .arr
    [.obj [("@id", .str "ncx"), ("@href", .str "")]])])])]

/-- Markup-to-object collaborator of the empty-href container. -/
def cXml : String → JVal := fun t =>
  if t == "C10C" then cContainerObj
  else if t == "C10P" then cOpfObj
  else .undefVal

/-- The empty-href archive. -/
def cZip : Archive :=
  [("META-INF/container.xml", "C10C"), ("pkg.opf", "C10P")]

/-- The document the empty-href container parses to: the `ncx` manifest
item exists and `tocFile` is set to its (empty) href, yet no outline is
built because the empty string is falsy. -/
def cDoc : Doc :=
  { opfPath := "pkg.opf"
  , root := ""
  , manifest := [⟨.str "", .str "ncx"⟩]
  , spine := []
  , tocFile := .str ""
  , outline := none
  , info := {}
  , sections := [] }

example : parseEpubDoc cZip cXml = .ok cDoc := rfl

/-- A nested-list navigation entry `B` (leaf, child of `A`). -/
def liB : JVal :=
  .obj [("a", .arr [.obj [("$", .obj [("href", .str "b.xhtml")]), ("_", .str "B")]])]

/-- A nested-list navigation entry `A` with the single child `B`. -/
def liA : JVal :=
  .obj
    [ ("a", .arr [.obj [("$", .obj [("href", .str "a.xhtml")]), ("_", .str "A")]])
    , ("ol", .arr [.obj [("li", .arr [liB])]])]

/-- A nested-list navigation entry `C` (leaf, sibling of `A`). -/
def liC : JVal :=
  .obj [("a", .arr [.obj [("$", .obj [("href", .str "c.xhtml")]), ("_", .str "C")]])]

/-- An HTML (Schema B) navigation document: a first top-level entry `A`
with one nested child `B`, followed by a second top-level entry `C`. -/
def hTocObj : JVal :=
  .obj [("html", .obj [("body", .arr [.obj [("nav", .arr [.obj [("ol",
    .arr [.obj [("li", .arr [liA, liC])]])]])]])])]

example : genStructure [] hTocObj = .ok
  [ ⟨.str "A", .str "", .str "", .str "a.xhtml", .num 1,
      some [⟨.str "B", .str "", .str "", .str "b.xhtml", .num 1, none⟩]⟩
  , ⟨.str "C", .str "", .str "", .str "c.xhtml", .num 3, none⟩] := rfl

/-! Theorems.  First the helper lemmas about the link-name normalization. -/

theorem upToFirst_append_not_mem (c : Char) (l r : List Char) (h : c ∉ l) :
    upToFirst c (l ++ r) = l ++ upToFirst c r := by
  induction l with
  | nil => simp
  | cons x xs ih =>
    rw [List.mem_cons, not_or] at h
    simp only [List.cons_append, upToFirst, List.append_eq]
    rw [if_neg (fun hx => h.1 hx.symm), ih h.2]

theorem upToFirst_of_not_mem (c : Char) (l : List Char) (h : c ∉ l) :
    upToFirst c l = l := by
  induction l with
  | nil => rfl
  | cons x xs ih =>
    rw [List.mem_cons, not_or] at h
    simp only [upToFirst]
    rw [if_neg (fun hx => h.1 hx.symm), ih h.2]

theorem takeWhile_append_stop (p : Char → Bool) (c : Char) (l r : List Char)
    (hc : p c = false) :
    List.takeWhile p (l ++ c :: r) = List.takeWhile p l := by
  induction l with
  | nil => simp [List.takeWhile_cons, hc]
  | cons x xs ih =>
    by_cases hx : p x <;> simp [List.takeWhile_cons, hx, ih]

theorem lastSeg_append_slash (l r : List Char) :
    lastSeg (l ++ '/' :: r) = lastSeg r := by
  unfold lastSeg
  rw [List.reverse_append, List.reverse_cons, List.append_assoc,
    List.singleton_append, takeWhile_append_stop _ '/' _ _ (by decide)]

theorem nameL_dir (p h : List Char) (hp : '#' ∉ p) :
    lastSeg (upToFirst '#' (p ++ '/' :: h)) = lastSeg (upToFirst '#' h) := by
  have h1 : ('#' : Char) ∉ p ++ ['/'] := by
    rw [List.mem_append, not_or]
    exact ⟨hp, by decide⟩
  have h2 : p ++ '/' :: h = (p ++ ['/']) ++ h := by simp
  rw [h2, upToFirst_append_not_mem _ _ _ h1, List.append_assoc,
    List.singleton_append, lastSeg_append_slash]

theorem nameL_frag (h f : List Char) (hh : '#' ∉ h) :
    upToFirst '#' (h ++ '#' :: f) = upToFirst '#' h := by
  rw [upToFirst_append_not_mem _ _ _ hh, upToFirst_of_not_mem _ _ hh]
  have h0 : upToFirst '#' ('#' :: f) = [] := by
    unfold upToFirst
    exact if_pos rfl
  rw [h0, List.append_nil]

theorem linkName_dir (p h : String) (hp : '#' ∉ p.data) :
    linkName (p ++ "/" ++ h) = linkName h := by
  unfold linkName parseLink
  have hd : (p ++ "/" ++ h).data = p.data ++ '/' :: h.data := by
    simp [String.data_append]
  rw [hd]
  exact congrArg String.mk (nameL_dir p.data h.data hp)

theorem linkName_frag (h f : String) (hh : '#' ∉ h.data) :
    linkName (h ++ "#" ++ f) = linkName h := by
  unfold linkName parseLink
  have hd : (h ++ "#" ++ f).data = h.data ++ '#' :: f.data := by
    simp [String.data_append]
  rw [hd]
  exact congrArg String.mk (congrArg lastSeg (nameL_frag h.data f.data hh))

theorem resolveIdFromLink_congr (man : List ManifestItem) (h1 h2 : String)
    (hn : linkName h1 = linkName h2) :
    resolveIdFromLink man h1 = resolveIdFromLink man h2 := by
  unfold resolveIdFromLink
  simp only [hn]

/-- C2: for every manifest containing an item whose href has base name
`chap1.xhtml`, the Link Resolver gives the same id for `chap1.xhtml`,
`/OEBPS/chap1.xhtml` and `chap1.xhtml#sec2` (namely the first matching
item's id); and in general its result is unchanged by prepending a
fragment-free directory or root prefix or by appending a fragment suffix
to a fragment-free href. -/
theorem C2_resolveId_invariance :
    (∀ man : List ManifestItem,
      resolveIdFromLink man "/OEBPS/chap1.xhtml" = resolveIdFromLink man "chap1.xhtml" ∧
      resolveIdFromLink man "chap1.xhtml#sec2" = resolveIdFromLink man "chap1.xhtml") ∧
    (∀ (man : List ManifestItem) (it : ManifestItem),
      man.find? (fun i => linkName (jvalToStr i.href) == "chap1.xhtml") = some it →
      resolveIdFromLink man "chap1.xhtml" = (if it.id.isUndef then .str "" else it.id)) ∧
    (∀ (man : List ManifestItem) (p h : String), '#' ∉ p.data →
      resolveIdFromLink man (p ++ "/" ++ h) = resolveIdFromLink man h) ∧
    (∀ (man : List ManifestItem) (h f : String), '#' ∉ h.data →
      resolveIdFromLink man (h ++ "#" ++ f) = resolveIdFromLink man h) := by
  refine ⟨fun man => ⟨?_, ?_⟩, fun man it hf => ?_, fun man p h hp => ?_, fun man h f hh => ?_⟩
  · exact resolveIdFromLink_congr man _ _ (by decide)
  · exact resolveIdFromLink_congr man _ _ (by decide)
  · unfold resolveIdFromLink
    have : linkName "chap1.xhtml" = "chap1.xhtml" := by decide
    rw [this, hf]
  · exact resolveIdFromLink_congr man _ _ (linkName_dir p h hp)
  · exact resolveIdFromLink_congr man _ _ (linkName_frag h f hh)

/-- Witness for C2 at a one-item manifest and concrete prefix/fragment. -/
theorem C2_resolveId_invariance_witness :
    resolveIdFromLink [⟨.str "Text/chap1.xhtml", .str "chap1"⟩] "chap1.xhtml" = .str "chap1" ∧
    resolveIdFromLink [⟨.str "Text/chap1.xhtml", .str "chap1"⟩] "/OEBPS/chap1.xhtml" = .str "chap1" ∧
    resolveIdFromLink [⟨.str "Text/chap1.xhtml", .str "chap1"⟩] "xx/chap1.xhtml" = .str "chap1" ∧
    resolveIdFromLink [⟨.str "Text/chap1.xhtml", .str "chap1"⟩] "chap1.xhtml#sec2" = .str "chap1" := by
  have h2 : resolveIdFromLink [⟨.str "Text/chap1.xhtml", .str "chap1"⟩] "chap1.xhtml"
      = .str "chap1" :=
    (C2_resolveId_invariance.2.1 [⟨.str "Text/chap1.xhtml", .str "chap1"⟩]
      ⟨.str "Text/chap1.xhtml", .str "chap1"⟩ rfl).trans rfl
  have h1 := (C2_resolveId_invariance.1 [⟨.str "Text/chap1.xhtml", .str "chap1"⟩])
  have h3 := (C2_resolveId_invariance.2.2.1
    [⟨.str "Text/chap1.xhtml", .str "chap1"⟩] "xx" "chap1.xhtml" (by decide))
  have h4 := (C2_resolveId_invariance.2.2.2
    [⟨.str "Text/chap1.xhtml", .str "chap1"⟩] "chap1.xhtml" "sec2" (by decide))
  refine ⟨h2, ?_, ?_, ?_⟩
  · rw [h1.1, h2]
  · rw [show ("xx/chap1.xhtml" : String) = "xx" ++ "/" ++ "chap1.xhtml" from rfl, h3, h2]
  · rw [show ("chap1.xhtml#sec2" : String) = "chap1.xhtml" ++ "#" ++ "sec2" from rfl, h4, h2]

/-- C7: an href matching no manifest item resolves to the empty string —
the Link Resolver is total, and a miss is embedded as the empty sentinel,
not raised. -/
theorem C7_resolveId_miss (man : List ManifestItem) (href : String)
    (h : ∀ it ∈ man, linkName (jvalToStr it.href) ≠ linkName href) :
    resolveIdFromLink man href = .str "" := by
  have hn : List.find? (fun item => linkName (jvalToStr item.href) == linkName href) man
      = none := by
    rw [List.find?_eq_none]
    intro it hmem
    simp only [beq_iff_eq]
    exact h it hmem
  unfold resolveIdFromLink
  rw [hn]

/-- Witness for C7 at a concrete manifest and unmatched href. -/
theorem C7_resolveId_miss_witness :
    resolveIdFromLink [⟨.str "Text/chap1.xhtml", .str "chap1"⟩] "nope.xhtml" = .str "" :=
  C7_resolveId_miss [⟨.str "Text/chap1.xhtml", .str "chap1"⟩] "nope.xhtml" (by decide)

/-- C6: the Archive Accessor strips a leading separator (archive-root
lookup) or prefixes the content root, URI-decodes the resulting path
before the entry lookup, succeeds exactly when the decoded path has an
entry, and fails with a not-found error carrying the resolved path;
including the spec's concrete scenarios. -/
theorem resolve_eq (zip : Archive) (root p : String) :
    resolve zip root p =
      match findEntry zip (decodeURI (resolveTarget root p)) with
      | some t => .ok t
      | none => .error (resolveTarget root p ++ " not found!") :=
  rfl

theorem C6_resolve_behavior :
    (∀ (zip : Archive) (root p : String),
      resolveTarget root ("/" ++ p) = p ∧
      (p.data.head? ≠ some '/' → resolveTarget root p = root ++ p) ∧
      (∀ t, resolve zip root p = .ok t ↔
        findEntry zip (decodeURI (resolveTarget root p)) = some t) ∧
      (∀ e, resolve zip root p = .error e →
        e = resolveTarget root p ++ " not found!" ∧
        findEntry zip (decodeURI (resolveTarget root p)) = none)) ∧
    resolve [("OEBPS/Text/chap1.xhtml", "X1"), ("META-INF/container.xml", "CC")]
      "OEBPS/" "Text/chap1.xhtml" = .ok "X1" ∧
    resolve [("OEBPS/Text/chap1.xhtml", "X1"), ("META-INF/container.xml", "CC")]
      "OEBPS/" "/META-INF/container.xml" = .ok "CC" ∧
    resolve [("OEBPS/Text/chap1.xhtml", "X1"), ("META-INF/container.xml", "CC")]
      "OEBPS/" "missing.xhtml" = .error "OEBPS/missing.xhtml not found!" ∧
    resolve [("OEBPS/a b.xhtml", "AB")] "OEBPS/" "a%20b.xhtml" = .ok "AB" := by
  refine ⟨fun zip root p => ⟨?_, ?_, ?_, ?_⟩, rfl, rfl, rfl, rfl⟩
  · have hd : ("/" ++ p).data = '/' :: p.data := by
      simp [String.data_append]
    unfold resolveTarget
    rw [hd]
    rfl
  · intro hne
    unfold resolveTarget
    split
    · rename_i rest heq
      exact absurd (by rw [heq]; rfl) hne
    · rfl
  · intro t
    rw [resolve_eq]
    cases hf : findEntry zip (decodeURI (resolveTarget root p)) with
    | none => simp
    | some s => simp
  · intro e he
    rw [resolve_eq] at he
    cases hf : findEntry zip (decodeURI (resolveTarget root p)) with
    | none =>
      rw [hf] at he
      exact ⟨(Except.error.inj he).symm, rfl⟩
    | some s =>
      rw [hf] at he
      cases he

/-- Witness for C6 at the spec's concrete scenario paths. -/
theorem C6_resolve_behavior_witness :
    resolveTarget "OEBPS/" "/META-INF/container.xml" = "META-INF/container.xml" ∧
    resolveTarget "OEBPS/" "Text/chap1.xhtml" = "OEBPS/Text/chap1.xhtml" ∧
    ("OEBPS/missing.xhtml not found!"
        = resolveTarget "OEBPS/" "missing.xhtml" ++ " not found!" ∧
      findEntry [("OEBPS/Text/chap1.xhtml", "X1"), ("META-INF/container.xml", "CC")]
        (decodeURI (resolveTarget "OEBPS/" "missing.xhtml")) = none) := by
  refine ⟨?_, ?_, ?_⟩
  · have h := (C6_resolve_behavior.1 [] "OEBPS/" "META-INF/container.xml").1
    rw [show ("/META-INF/container.xml" : String)
      = "/" ++ "META-INF/container.xml" from rfl]
    exact h
  · have h := (C6_resolve_behavior.1 [] "OEBPS/" "Text/chap1.xhtml").2.1 (by decide)
    exact h
  · exact (C6_resolve_behavior.1
      [("OEBPS/Text/chap1.xhtml", "X1"), ("META-INF/container.xml", "CC")]
      "OEBPS/" "missing.xhtml").2.2.2 "OEBPS/missing.xhtml not found!" rfl

/-- C3: `getManifest` does not normalize a single manifest item to a
sequence — on a package document whose item list parsed as a bare object
it raises a `TypeError` (`.map` is not a function) instead of producing a
one-element manifest, while an explicit one-element array works. -/
theorem C3_getManifest_single_item_crash :
    getManifest (.obj [("package", .obj [("manifest", .obj [("item",
        .obj [("@id", .str "a"), ("@href", .str "a.xhtml")])])])])
      = .error "TypeError: items.map is not a function" ∧
    getManifest (.obj [("package", .obj [("manifest", .obj [("item",
        .arr [.obj [("@id", .str "a"), ("@href", .str "a.xhtml")]])])])])
      = .ok [⟨.str "a.xhtml", .str "a"⟩] :=
  ⟨rfl, rfl⟩

/-- Helper: a kept scalar metadata field is never undefined. -/
theorem ite_undef_some {xv v : JVal}
    (h : (if xv.isUndef then none else some xv) = some v) : v.isUndef = false := by
  by_cases hc : xv.isUndef = true
  · rw [if_pos hc] at h
    cases h
  · rw [if_neg hc] at h
    obtain rfl := Option.some.inj h
    simpa using hc

/-- Helper: a kept author array is non-empty with a defined first
element. -/
theorem ite_author_some {al l : List JVal}
    (h : (if al.isEmpty || headUndef al then none else some al) = some l) :
    l ≠ [] ∧ headUndef l = false := by
  by_cases hc : (al.isEmpty || headUndef al) = true
  · rw [if_pos hc] at h
    cases h
  · rw [if_neg hc] at h
    obtain rfl := Option.some.inj h
    rw [Bool.or_eq_true, not_or] at hc
    refine ⟨fun hnil => hc.1 ?_, ?_⟩
    · rw [hnil]
      rfl
    · simpa using hc.2

/-- Helper: every field kept by the `pickBy` record was genuinely
present. -/
theorem metaRecord_drops (tv : JVal) (al : List JVal) (dv lv pv rv : JVal) :
    (∀ l, (metaRecord tv al dv lv pv rv).author = some l →
      l ≠ [] ∧ headUndef l = false) ∧
    (∀ v, (metaRecord tv al dv lv pv rv).title = some v → v.isUndef = false) ∧
    (∀ v, (metaRecord tv al dv lv pv rv).description = some v → v.isUndef = false) ∧
    (∀ v, (metaRecord tv al dv lv pv rv).language = some v → v.isUndef = false) ∧
    (∀ v, (metaRecord tv al dv lv pv rv).publisher = some v → v.isUndef = false) ∧
    (∀ v, (metaRecord tv al dv lv pv rv).rights = some v → v.isUndef = false) :=
  ⟨fun _ hl => ite_author_some hl, fun _ hv => ite_undef_some hv,
    fun _ hv => ite_undef_some hv, fun _ hv => ite_undef_some hv,
    fun _ hv => ite_undef_some hv, fun _ hv => ite_undef_some hv⟩

/-- C8: metadata extraction drops absent fields (a kept scalar field is
never undefined; a kept author sequence is non-empty with a defined first
element); a package document with only `dc:title` and `dc:creator` yields
a record with exactly the keys title and author; and a single non-array
creator is still collected into a one-element sequence. -/
theorem C8_parseMetadata_drops_absent :
    (∀ (meta : JVal) (r : MetaInfo), parseMetadata meta = .ok r →
      (∀ l, r.author = some l → l ≠ [] ∧ headUndef l = false) ∧
      (∀ v, r.title = some v → v.isUndef = false) ∧
      (∀ v, r.description = some v → v.isUndef = false) ∧
      (∀ v, r.language = some v → v.isUndef = false) ∧
      (∀ v, r.publisher = some v → v.isUndef = false) ∧
      (∀ v, r.rights = some v → v.isUndef = false)) ∧
    parseMetadata (.obj [("dc:title", .str "T"), ("dc:creator", .obj [("#text", .str "A")])])
      = .ok { title := some (.str "T"), author := some [.str "A"] } ∧
    (∀ s : String, parseMetadata (.obj [("dc:creator", .obj [("#text", .str s)])])
      = .ok { author := some [.str s] }) := by
  refine ⟨fun meta r hr => ?_, rfl, fun s => rfl⟩
  unfold parseMetadata at hr
  split at hr
  · cases hr
  · cases hr
    exact metaRecord_drops _ _ _ _ _ _

/-- Witness for C8: the dropping property applied to the concrete
title-and-creator metadata block. -/
theorem C8_parseMetadata_drops_absent_witness :
    [JVal.str "A"] ≠ [] ∧ headUndef [JVal.str "A"] = false := by
  exact (C8_parseMetadata_drops_absent.1
    (.obj [("dc:title", .str "T"), ("dc:creator", .obj [("#text", .str "A")])])
    { title := some (.str "T"), author := some [.str "A"] } rfl).1 [.str "A"] rfl

/-- C1: the Schema B order values do not form the pre-order visitation
sequence — on a parent `A` with child `B` and sibling `C` (pre-order
`A, B, C`), the builder assigns `playOrder` 1 to both `A` and `B` and 3 to
`C`, because the shared counter is incremented only after a node's
children have been traversed. -/
theorem C1_html_playOrder_eval :
    genStructure [] hTocObj = .ok
      [ ⟨.str "A", .str "", .str "", .str "a.xhtml", .num 1,
          some [⟨.str "B", .str "", .str "", .str "b.xhtml", .num 1, none⟩]⟩
      , ⟨.str "C", .str "", .str "", .str "c.xhtml", .num 3, none⟩] :=
  rfl

/-- Helper: a successful `parse()` means every stage succeeded, and the
document is exactly the record of the stages' outputs. -/
theorem parseEpubDoc_ok_inv (zip : Archive) (x : String → JVal) (d : Doc)
    (h : parseEpubDoc zip x = .ok d) :
    ∃ (opfPath contentText : String) (manifest : List ManifestItem)
      (outlineOpt : Option (List TOCItem)) (spine : SpineMap) (info : MetaInfo)
      (sections : List Section),
      getOpfPath zip x = .ok opfPath ∧
      resolve zip "undefined" ("/" ++ opfPath) = .ok contentText ∧
      getManifest (x contentText) = .ok manifest ∧
      buildOutline zip x (determineRoot opfPath) manifest (tocFileOf manifest)
        = .ok outlineOpt ∧
      getSpine (x contentText) = .ok spine ∧
      parseMetadata (getPath (x contentText) ["package", "metadata"] (.obj []))
        = .ok info ∧
      resolveSections zip (determineRoot opfPath) manifest spine none = .ok sections ∧
      d = { opfPath := opfPath, root := determineRoot opfPath, manifest := manifest
          , spine := spine, tocFile := tocFileOf manifest, outline := outlineOpt
          , info := info, sections := sections } := by
  unfold parseEpubDoc at h
  cases h1 : getOpfPath zip x with
  | error e => rw [h1] at h; simp [Bind.bind, Except.bind] at h
  | ok opfPath =>
  rw [h1] at h
  simp only [Bind.bind, Except.bind] at h
  cases h2 : resolve zip "undefined" ("/" ++ opfPath) with
  | error e => rw [h2] at h; simp [Except.bind] at h
  | ok contentText =>
  rw [h2] at h
  simp only [Except.bind] at h
  cases h3 : getManifest (x contentText) with
  | error e => rw [h3] at h; simp [Except.bind] at h
  | ok manifest =>
  rw [h3] at h
  simp only [Except.bind] at h
  cases h4 : buildOutline zip x (determineRoot opfPath) manifest (tocFileOf manifest) with
  | error e => rw [h4] at h; simp [Except.bind] at h
  | ok outlineOpt =>
  rw [h4] at h
  simp only [Except.bind] at h
  cases h5 : getSpine (x contentText) with
  | error e => rw [h5] at h; simp [Except.bind] at h
  | ok spine =>
  rw [h5] at h
  simp only [Except.bind] at h
  cases h6 : parseMetadata (getPath (x contentText) ["package", "metadata"] (.obj [])) with
  | error e => rw [h6] at h; simp [Except.bind] at h
  | ok info =>
  rw [h6] at h
  simp only [Except.bind] at h
  cases h7 : resolveSections zip (determineRoot opfPath) manifest spine none with
  | error e => rw [h7] at h; simp [Except.bind] at h
  | ok sections =>
  rw [h7] at h
  simp only [Except.bind, pure, Except.pure, Except.ok.injEq] at h
  exact ⟨opfPath, contentText, manifest, outlineOpt, spine, info, sections,
    rfl, h2, h3, h4, h5, h6, h7, h.symm⟩

theorem resolveTarget_slash (root p : String) : resolveTarget root ("/" ++ p) = p := by
  have hd : ("/" ++ p).data = '/' :: p.data := by
    simp [String.data_append]
  unfold resolveTarget
  rw [hd]
  rfl

/-- C10 (counterexample): a parsed document whose manifest does contain an
item with id `ncx` (with an empty href) but whose navigation structure is
absent — refuting "outline and tocFile are defined iff an `ncx`-id item
exists", since the truthiness guard on the href also matters. -/
theorem C10_ncx_counterexample :
    parseEpubDoc cZip cXml = .ok cDoc ∧
    (cDoc.manifest.find? (fun m => jeqStr m.id "ncx")).isSome = true ∧
    cDoc.outline = none ∧
    cDoc.tocFile = .str "" :=
  ⟨rfl, rfl, rfl, rfl⟩

/-- C10 (amended): the navigation file is selected solely by the manifest
containing an item whose id is exactly `ncx` — `tocFile` is that item's
href (absent when there is no such item) — and the outline is built if and
only if that href is truthy (in particular, non-empty). -/
theorem C10_ncx_amended (zip : Archive) (x : String → JVal) (d : Doc)
    (h : parseEpubDoc zip x = .ok d) :
    d.tocFile = tocFileOf d.manifest ∧
    d.outline.isSome = truthy d.tocFile := by
  obtain ⟨opfPath, ct, man, oo, sp, info, secs, h1, h2, h3, h4, h5, h6, h7, hd⟩ :=
    parseEpubDoc_ok_inv zip x d h
  subst hd
  refine ⟨rfl, ?_⟩
  show oo.isSome = truthy (tocFileOf man)
  unfold buildOutline at h4
  by_cases ht : truthy (tocFileOf man) = true
  · rw [if_pos ht] at h4
    rw [ht]
    cases hr : resolve zip (determineRoot opfPath) (jvalToStr (tocFileOf man)) with
    | error e => rw [hr] at h4; simp [Bind.bind, Except.bind] at h4
    | ok tocText =>
    rw [hr] at h4
    simp only [Bind.bind, Except.bind] at h4
    cases hg : genStructure man (x tocText) with
    | error e => rw [hg] at h4; simp [Except.bind] at h4
    | ok s =>
    rw [hg] at h4
    simp only [Except.bind, pure, Except.pure, Except.ok.injEq] at h4
    rw [← h4]
    rfl
  · rw [if_neg ht] at h4
    simp only [pure, Except.pure, Except.ok.injEq] at h4
    rw [← h4]
    simpa using (Bool.not_eq_true _).mp ht |>.symm

/-- Witness for C10's amended claim at the example container. -/
theorem C10_ncx_amended_witness :
    eDoc.tocFile = tocFileOf eDoc.manifest ∧
    eDoc.outline.isSome = truthy eDoc.tocFile :=
  C10_ncx_amended eZip eXml eDoc rfl

/-- C5 (counterexample): the id `toString` is not a spine key of the
example document (no own binding), yet `getSection` returns `undefined`
instead of a freshly resolved section — `this._spine["toString"]` walks
the prototype chain and yields the inherited function, which is not
`=== undefined`, so the fallback branch is skipped and the sections array
is indexed with a function; the claimed per-item resolution of that id
would instead raise. -/
theorem C5_getSection_counterexample :
    ogetOwn eDoc.spine "toString" = none ∧
    oget eDoc.spine "toString" = .inherited ∧
    getSection eZip eDoc.root eDoc.manifest (some eDoc.spine) (some eDoc.sections)
      "toString" = .ok none ∧
    (resolveSection eZip eDoc.root eDoc.manifest "toString").map some
      = .error "TypeError: cannot read properties of undefined (reading href)" :=
  ⟨rfl, rfl, rfl, rfl⟩

/-- C5 (amended): after a completed parse, `getSection` on an id with an
own spine binding returns the section at that spine index; on an id whose
spine read is `undefined` (no own binding and not an `Object.prototype`
member name) it returns the section produced by the per-item resolution
path for that single id, bypassing the spine; and on an id naming an
`Object.prototype` member with no own binding it returns `undefined`
rather than a fresh resolution. -/
theorem C5_getSection (zip : Archive) (x : String → JVal) (d : Doc) (id : String)
    (_h : parseEpubDoc zip x = .ok d) :
    (∀ n, oget d.spine id = .idx n →
      getSection zip d.root d.manifest (some d.spine) (some d.sections) id
        = .ok (d.sections.get? n)) ∧
    (oget d.spine id = .missing →
      getSection zip d.root d.manifest (some d.spine) (some d.sections) id
        = (resolveSection zip d.root d.manifest id).map some) ∧
    (oget d.spine id = .inherited →
      getSection zip d.root d.manifest (some d.spine) (some d.sections) id
        = .ok none) := by
  have hu : getSection zip d.root d.manifest (some d.spine) (some d.sections) id
      = match oget d.spine id with
        | .missing => (resolveSections zip d.root d.manifest d.spine (some id)).map
            (fun l => l.head?)
        | .idx n => .ok (d.sections.get? n)
        | .inherited => .ok none := rfl
  refine ⟨fun n hn => ?_, fun hn => ?_, fun hn => ?_⟩
  · rw [hu, hn]
  · rw [hu, hn]
    unfold resolveSections
    cases hf : resolveSection zip d.root d.manifest id with
    | error e => simp [mapE, hf, Except.map]
    | ok s => simp [mapE, hf, Except.map]
  · rw [hu, hn]

/-- Witness for C5 at the example container: the spine id `chap1` (own
binding, index 0), the out-of-spine id `ncx` (undefined read), and the
prototype-member id `valueOf`. -/
theorem C5_getSection_witness :
    getSection eZip eDoc.root eDoc.manifest (some eDoc.spine) (some eDoc.sections) "chap1"
      = .ok (eDoc.sections.get? 0) ∧
    getSection eZip eDoc.root eDoc.manifest (some eDoc.spine) (some eDoc.sections) "ncx"
      = (resolveSection eZip eDoc.root eDoc.manifest "ncx").map some ∧
    getSection eZip eDoc.root eDoc.manifest (some eDoc.spine) (some eDoc.sections) "valueOf"
      = .ok none :=
  ⟨(C5_getSection eZip eXml eDoc "chap1" rfl).1 0 rfl,
   (C5_getSection eZip eXml eDoc "ncx" rfl).2.1 rfl,
   (C5_getSection eZip eXml eDoc "valueOf" rfl).2.2 rfl⟩

/-- C9: fatal conditions unwind to the top-level parse — a failing
bootstrap stage fails the whole parse with the same error, a missing
bootstrap descriptor fails the bootstrap stage, a missing package document
fails the whole parse — and a successful parse implies every stage
succeeded with its output recorded in the returned document (no partially
populated document is ever a success value). -/
theorem C9_fatal_unwinds :
    (∀ (zip : Archive) (x : String → JVal) (e : String),
      getOpfPath zip x = .error e → parseEpubDoc zip x = .error e) ∧
    (∀ (zip : Archive) (x : String → JVal),
      findEntry zip "META-INF/container.xml" = none →
      getOpfPath zip x = .error "META-INF/container.xml not found!") ∧
    (∀ (zip : Archive) (x : String → JVal) (p : String),
      getOpfPath zip x = .ok p →
      findEntry zip (decodeURI p) = none →
      parseEpubDoc zip x = .error (p ++ " not found!")) ∧
    (∀ (zip : Archive) (x : String → JVal) (d : Doc),
      parseEpubDoc zip x = .ok d →
      getOpfPath zip x = .ok d.opfPath ∧
      ∃ ct, resolve zip "undefined" ("/" ++ d.opfPath) = .ok ct ∧
        getManifest (x ct) = .ok d.manifest ∧
        getSpine (x ct) = .ok d.spine ∧
        parseMetadata (getPath (x ct) ["package", "metadata"] (.obj [])) = .ok d.info ∧
        resolveSections zip d.root d.manifest d.spine none = .ok d.sections) := by
  refine ⟨fun zip x e he => ?_, fun zip x hf => ?_, fun zip x p hp hf => ?_,
    fun zip x d h => ?_⟩
  · unfold parseEpubDoc
    rw [he]
    rfl
  · unfold getOpfPath
    have hres : resolve zip "undefined" "/META-INF/container.xml"
        = .error "META-INF/container.xml not found!" := by
      rw [resolve_eq]
      rw [show decodeURI (resolveTarget "undefined" "/META-INF/container.xml")
        = "META-INF/container.xml" from rfl, hf]
      rfl
    rw [hres]
    rfl
  · unfold parseEpubDoc
    rw [hp]
    have hres : resolve zip "undefined" ("/" ++ p) = .error (p ++ " not found!") := by
      rw [resolve_eq, resolveTarget_slash, hf]
    simp only [Bind.bind, Except.bind]
    rw [hres]
  · obtain ⟨opfPath, ct, man, oo, sp, info, secs, h1, h2, h3, h4, h5, h6, h7, hd⟩ :=
      parseEpubDoc_ok_inv zip x d h
    subst hd
    exact ⟨h1, ct, h2, h3, h5, h6, h7⟩

/-- Witness for C9: the empty archive fails its parse at the bootstrap
stage with the not-found error; a container with a bootstrap but no
package document fails the whole parse; and the example container's
successful parse has all stage outputs recorded. -/
theorem C9_fatal_unwinds_witness :
    parseEpubDoc [] eXml = .error "META-INF/container.xml not found!" ∧
    parseEpubDoc [("META-INF/container.xml", "CONTAINER")] eXml
      = .error "OEBPS/content.opf not found!" ∧
    getOpfPath eZip eXml = .ok eDoc.opfPath := by
  refine ⟨?_, ?_, (C9_fatal_unwinds.2.2.2 eZip eXml eDoc rfl).1⟩
  · exact C9_fatal_unwinds.1 [] eXml _ (C9_fatal_unwinds.2.1 [] eXml rfl)
  · exact C9_fatal_unwinds.2.2.1 [("META-INF/container.xml", "CONTAINER")] eXml
      "OEBPS/content.opf" rfl rfl

/-! Helper lemmas for the spine bijection (C4). -/

/-- Reference list of spine bindings: key `ids[k]`, value `i + k`. -/
def spinePairs : List String → Nat → SpineMap
  | [], _ => []
  | x :: xs, i => (x, i) :: spinePairs xs (i + 1)

/-- Manifest of the array-index-key counterexample: items `b` and `0`. -/
def c4Man : List ManifestItem :=
  [⟨.str "b.xhtml", .str "b"⟩, ⟨.str "0.xhtml", .str "0"⟩]

/-- Archive of the array-index-key counterexample. -/
def c4Zip : Archive := [("b.xhtml", "HB"), ("0.xhtml", "H0")]

theorem oset_append (m : SpineMap) (k : String) (v : Nat)
    (hpr : k ≠ "__proto__") (h : k ∉ rawKeys m) :
    oset m k v = m ++ [(k, v)] := by
  unfold oset
  rw [if_neg (by simp [hpr]), if_neg]
  intro hany
  obtain ⟨p, hpm, hpk⟩ := List.any_eq_true.mp hany
  exact h (List.mem_map.mpr ⟨p, hpm, (eq_of_beq hpk).symm ▸ rfl⟩)

theorem rawKeys_append (m m' : SpineMap) :
    rawKeys (m ++ m') = rawKeys m ++ rawKeys m' :=
  List.map_append _ m m'

theorem spineAux_eq_append (ids : List String) :
    ∀ (i : Nat) (m : SpineMap), (∀ x ∈ ids, x ∉ rawKeys m) → ids.Nodup →
    (∀ x ∈ ids, x ≠ "__proto__") →
    spineAux ids i m = m ++ spinePairs ids i := by
  induction ids with
  | nil => intro i m _ _ _; simp [spineAux, spinePairs]
  | cons a as ih =>
    intro i m hdisj hnd hpr
    rw [List.nodup_cons] at hnd
    have ha : a ∉ rawKeys m := hdisj a (List.mem_cons_self a as)
    show spineAux as (i + 1) (oset m a i) = m ++ ((a, i) :: spinePairs as (i + 1))
    rw [oset_append m a i (hpr a (List.mem_cons_self a as)) ha,
      ih (i + 1) (m ++ [(a, i)]) ?hd hnd.2 (fun x hx => hpr x (List.mem_cons_of_mem a hx))]
    · rw [List.append_assoc]
      rfl
    case hd =>
      intro x hx
      rw [rawKeys_append, List.mem_append]
      rintro (hxm | hxa)
      · exact hdisj x (List.mem_cons_of_mem a hx) hxm
      · have : x = a := by simpa [rawKeys] using hxa
        exact hnd.1 (this ▸ hx)

theorem ogetOwn_spinePairs_nodup (ids : List String) :
    ∀ (i : Nat), ids.Nodup →
    ∀ x j, ogetOwn (spinePairs ids i) x = some j ↔
      ∃ k, ids.get? k = some x ∧ j = i + k := by
  induction ids with
  | nil =>
    intro i _ x j
    constructor
    · intro h; cases h
    · rintro ⟨k, hk, _⟩; cases hk
  | cons a as ih =>
    intro i hnd x j
    rw [List.nodup_cons] at hnd
    have hcons : spinePairs (a :: as) i = (a, i) :: spinePairs as (i + 1) := rfl
    by_cases hxa : a == x
    · have hxa' : a = x := eq_of_beq hxa
      subst hxa'
      have hL : ogetOwn (spinePairs (a :: as) i) a = some i := by
        rw [hcons]
        unfold ogetOwn
        rw [List.find?_cons_of_pos _ (by simp)]
        rfl
      constructor
      · intro h
        rw [hL] at h
        obtain rfl := Option.some.inj h
        exact ⟨0, by simp⟩
      · rintro ⟨k, hk, rfl⟩
        cases k with
        | zero => simpa using hL
        | succ n =>
          exfalso
          exact hnd.1 (List.get?_mem (by simpa using hk))
    · have hL : ogetOwn (spinePairs (a :: as) i) x = ogetOwn (spinePairs as (i + 1)) x := by
        rw [hcons]
        unfold ogetOwn
        rw [List.find?_cons_of_neg _ (by simpa using hxa)]
      rw [hL, ih (i + 1) hnd.2 x j]
      constructor
      · rintro ⟨k, hk, rfl⟩
        exact ⟨k + 1, by simpa using hk, by omega⟩
      · rintro ⟨k, hk, rfl⟩
        cases k with
        | zero =>
          exfalso
          exact (by simpa using hxa : a ≠ x) (by simpa using hk)
        | succ n =>
          exact ⟨n, by simpa using hk, by omega⟩

theorem oget_idx_iff (m : SpineMap) (x : String) (j : Nat) :
    oget m x = .idx j ↔ ogetOwn m x = some j := by
  unfold oget
  cases h : ogetOwn m x with
  | some n => simp
  | none =>
    have hred : (match (none : Option Nat) with
        | some n => SpineVal.idx n
        | none => if protoMember x then SpineVal.inherited else SpineVal.missing)
        = (if protoMember x then SpineVal.inherited else SpineVal.missing) := rfl
    rw [hred]
    constructor
    · intro hc
      split at hc <;> cases hc
    · intro hc
      cases hc

theorem rawKeys_spinePairs (ids : List String) :
    ∀ i, rawKeys (spinePairs ids i) = ids := by
  induction ids with
  | nil => intro i; rfl
  | cons a as ih =>
    intro i
    show a :: rawKeys (spinePairs as (i + 1)) = a :: as
    rw [ih]

theorem mem_insertByVal_sub (x y : String) :
    ∀ l, y ∈ insertByVal x l → y = x ∨ y ∈ l := by
  intro l
  induction l with
  | nil =>
    intro h
    exact Or.inl (List.mem_singleton.mp h)
  | cons z zs ih =>
    intro h
    unfold insertByVal at h
    split at h
    · rcases List.mem_cons.mp h with rfl | h2
      · exact Or.inl rfl
      · exact Or.inr h2
    · rcases List.mem_cons.mp h with rfl | h2
      · exact Or.inr (List.mem_cons_self _ _)
      · rcases ih h2 with h3 | h3
        · exact Or.inl h3
        · exact Or.inr (List.mem_cons_of_mem z h3)

theorem mem_sortByVal_sub (y : String) : ∀ l, y ∈ sortByVal l → y ∈ l := by
  intro l
  induction l with
  | nil => intro h; cases h
  | cons x xs ih =>
    intro h
    unfold sortByVal at h
    rcases mem_insertByVal_sub x y _ h with rfl | h2
    · exact List.mem_cons_self _ _
    · exact List.mem_cons_of_mem x (ih h2)

theorem mem_okeys_sub (m : SpineMap) (y : String) (h : y ∈ okeys m) :
    y ∈ rawKeys m := by
  unfold okeys at h
  rcases List.mem_append.mp h with h2 | h2
  · exact List.mem_of_mem_filter (mem_sortByVal_sub y _ h2)
  · exact List.mem_of_mem_filter h2

theorem okeys_of_good (m : SpineMap)
    (hgood : ∀ x ∈ rawKeys m, isArrayIndex x = false) :
    okeys m = rawKeys m := by
  unfold okeys
  rw [List.filter_eq_nil_iff.mpr ?h1, List.filter_eq_self.mpr ?h2]
  · rfl
  case h1 =>
    intro a ha
    simp [hgood a ha]
  case h2 =>
    intro a ha
    simp [hgood a ha]

theorem dedupAux_of_nodup (l : List String) :
    ∀ seen, (∀ x ∈ l, x ∉ seen) → l.Nodup → dedupAux l seen = l := by
  induction l with
  | nil => intro seen _ _; rfl
  | cons a as ih =>
    intro seen hdisj hnd
    rw [List.nodup_cons] at hnd
    unfold dedupAux
    rw [if_neg (hdisj a (List.mem_cons_self a as)), ih (a :: seen) ?hd hnd.2]
    case hd =>
      intro x hx
      rw [List.mem_cons, not_or]
      exact ⟨fun hxa => hnd.1 (hxa ▸ hx), hdisj x (List.mem_cons_of_mem a hx)⟩

theorem dedupFirst_of_nodup (l : List String) (h : l.Nodup) : dedupFirst l = l :=
  dedupAux_of_nodup l [] (by simp) h

theorem dedupAux_subset (l : List String) :
    ∀ seen y, y ∈ dedupAux l seen → y ∈ l := by
  induction l with
  | nil => intro seen y h; cases h
  | cons a as ih =>
    intro seen y h
    unfold dedupAux at h
    split at h
    · exact List.mem_cons_of_mem a (ih seen y h)
    · rcases List.mem_cons.mp h with rfl | h2
      · exact List.mem_cons_self _ _
      · exact List.mem_cons_of_mem a (ih (a :: seen) y h2)

theorem rawKeys_oset_subset (m : SpineMap) (k : String) (v : Nat) (y : String)
    (h : y ∈ rawKeys (oset m k v)) : y ∈ rawKeys m ∨ y = k := by
  unfold oset at h
  split at h
  · exact Or.inl h
  · split at h
    · obtain ⟨p, hp, hpy⟩ := List.mem_map.mp h
      obtain ⟨q, hq, hfq⟩ := List.mem_map.mp hp
      by_cases hqk : q.1 == k
      · right
        rw [if_pos hqk] at hfq
        subst hfq
        exact hpy.symm
      · left
        rw [if_neg hqk] at hfq
        subst hfq
        exact List.mem_map.mpr ⟨q, hq, hpy⟩
    · rw [rawKeys_append, List.mem_append] at h
      rcases h with h | h
      · exact Or.inl h
      · right
        simpa [rawKeys] using h

theorem rawKeys_spineAux_subset (ids : List String) :
    ∀ (i : Nat) (m : SpineMap) (y : String),
    y ∈ rawKeys (spineAux ids i m) → y ∈ rawKeys m ∨ y ∈ ids := by
  induction ids with
  | nil => intro i m y h; exact Or.inl h
  | cons a as ih =>
    intro i m y h
    rcases ih (i + 1) (oset m a i) y h with h2 | h2
    · rcases rawKeys_oset_subset m a i y h2 with h3 | h3
      · exact Or.inl h3
      · exact Or.inr (h3 ▸ List.mem_cons_self a as)
    · exact Or.inr (List.mem_cons_of_mem a h2)

theorem mapE_ok_of_all {α β : Type} (f : α → Except String β) (l : List α)
    (h : ∀ a ∈ l, ∃ b, f a = .ok b) :
    ∃ bs, mapE f l = .ok bs ∧ bs.length = l.length := by
  induction l with
  | nil => exact ⟨[], rfl, rfl⟩
  | cons a as ih =>
    obtain ⟨b, hb⟩ := h a (List.mem_cons_self a as)
    obtain ⟨bs, hbs, hlen⟩ := ih (fun a' ha' => h a' (List.mem_cons_of_mem a ha'))
    refine ⟨b :: bs, ?_, by simp [hlen]⟩
    unfold mapE
    rw [hb, hbs]

theorem mapE_ok_get {α β : Type} (f : α → Except String β) :
    ∀ (l : List α) (bs : List β), mapE f l = .ok bs →
    ∀ j a, l.get? j = some a → ∃ b, bs.get? j = some b ∧ f a = .ok b := by
  intro l
  induction l with
  | nil => intro bs _ j a ha; cases ha
  | cons x xs ih =>
    intro bs hbs j a ha
    unfold mapE at hbs
    cases hx : f x with
    | error e => rw [hx] at hbs; cases hbs
    | ok y =>
    rw [hx] at hbs
    cases hxs : mapE f xs with
    | error e => rw [hxs] at hbs; cases hbs
    | ok ys =>
    rw [hxs] at hbs
    obtain rfl := Except.ok.inj hbs
    cases j with
    | zero =>
      obtain rfl := Option.some.inj ha
      exact ⟨y, rfl, hx⟩
    | succ n => exact ih ys hxs n a (by simpa using ha)

theorem mapE_get_ok {α β : Type} (f : α → Except String β) :
    ∀ (l : List α) (bs : List β), mapE f l = .ok bs →
    ∀ j b, bs.get? j = some b → ∃ a, l.get? j = some a ∧ f a = .ok b := by
  intro l
  induction l with
  | nil =>
    intro bs hbs j b hb
    obtain rfl : ([] : List β) = bs := by
      unfold mapE at hbs
      exact Except.ok.inj hbs
    cases hb
  | cons x xs ih =>
    intro bs hbs j b hb
    unfold mapE at hbs
    cases hx : f x with
    | error e => rw [hx] at hbs; cases hbs
    | ok y =>
    rw [hx] at hbs
    cases hxs : mapE f xs with
    | error e => rw [hxs] at hbs; cases hbs
    | ok ys =>
    rw [hxs] at hbs
    obtain rfl := Except.ok.inj hbs
    cases j with
    | zero =>
      obtain rfl := Option.some.inj hb
      exact ⟨x, rfl, hx⟩
    | succ n =>
      obtain ⟨a, ha, hfa⟩ := ih ys hxs n b (by simpa using hb)
      exact ⟨a, by simpa using ha, hfa⟩

theorem resolveSection_ok_id (zip : Archive) (root : String)
    (man : List ManifestItem) (id : String) (s : Section)
    (h : resolveSection zip root man id = .ok s) : s.id = id := by
  unfold resolveSection at h
  split at h
  · cases h
  · split at h
    · cases h
    · obtain rfl := Except.ok.inj h
      rfl

theorem buildSpine_map (ids : List String) :
    ∀ (i : Nat) (m : SpineMap),
    buildSpine (ids.map (fun s => .obj [("@idref", .str s)])) i m
      = .ok (spineAux ids i m) := by
  induction ids with
  | nil => intro i m; rfl
  | cons a as ih =>
    intro i m
    show buildSpine (JVal.obj [("@idref", .str a)] :: as.map _) i m = _
    have hstep : buildSpine (JVal.obj [("@idref", .str a)] :: as.map
        (fun s => .obj [("@idref", .str s)])) i m
        = buildSpine (as.map (fun s => .obj [("@idref", .str s)])) (i + 1) (oset m a i) := rfl
    rw [hstep, ih]
    rfl

/-- C4 (counterexample): for the declared item-references `b`, `0` the
spine object binds them in declaration order, but `Object.keys` enumerates
the array-index key `"0"` first, so the eager pass resolves `sections[0]`
for id `0` while `spine["0"] = 1` — refuting "sections[i] for id x iff
spine[x] == i" in declaration order; and an idref `__proto__` is silently
dropped from the spine by the inherited setter. -/
theorem C4_spine_counterexample :
    getSpine (mkSpineContent ["b", "0"]) = .ok [("b", 0), ("0", 1)] ∧
    okeys [("b", 0), ("0", 1)] = ["0", "b"] ∧
    resolveSections c4Zip "" c4Man [("b", 0), ("0", 1)] none
      = .ok [⟨"0", "H0"⟩, ⟨"b", "HB"⟩] ∧
    oget [("b", 0), ("0", 1)] "0" = .idx 1 ∧
    ¬oget [("b", 0), ("0", 1)] "0" = .idx 0 ∧
    getSpine (mkSpineContent ["__proto__"]) = .ok [] :=
  ⟨rfl, rfl, rfl, rfl, by decide, rfl⟩

/-- C4 (amended): for pairwise-distinct item-references none of which is
an array-index-like string or `__proto__`, the spine built by `getSpine`
is a bijection onto the indices `0..n-1` in declaration order
(`spine[x] = i` iff `x` is the i-th idref), and the eager resolution pass
produces `sections[i]` for id `x` iff `spine[x] = i`; duplicate idrefs
collapse by the spine object's key semantics and — for arbitrary idrefs —
eager resolution still succeeds without crashing as long as every
referenced id is resolvable. -/
theorem C4_spine_bijection_sections :
    (∀ ids : List String, ids.Nodup →
      (∀ id ∈ ids, isArrayIndex id = false ∧ id ≠ "__proto__") →
      getSpine (mkSpineContent ids) = .ok (spineAux ids 0 []) ∧
      (∀ x j, oget (spineAux ids 0 []) x = .idx j ↔ ids.get? j = some x) ∧
      (∀ (zip : Archive) (root : String) (man : List ManifestItem),
        (∀ id ∈ ids, ∃ s, resolveSection zip root man id = .ok s) →
        ∃ secs, resolveSections zip root man (spineAux ids 0 []) none = .ok secs ∧
          secs.length = ids.length ∧
          (∀ j x, oget (spineAux ids 0 []) x = .idx j ↔
            ∃ s, secs.get? j = some s ∧ s.id = x))) ∧
    (∀ (ids : List String) (zip : Archive) (root : String) (man : List ManifestItem),
      (∀ id ∈ ids, ∃ s, resolveSection zip root man id = .ok s) →
      ∃ secs, resolveSections zip root man (spineAux ids 0 []) none = .ok secs) := by
  constructor
  · intro ids hnd hgood
    have hsp : spineAux ids 0 [] = spinePairs ids 0 := by
      rw [spineAux_eq_append ids 0 [] (by intro x _ hx; cases hx) hnd
        (fun x hx => (hgood x hx).2)]
      exact List.nil_append _
    have hbij : ∀ x j, oget (spineAux ids 0 []) x = .idx j ↔ ids.get? j = some x := by
      intro x j
      rw [hsp, oget_idx_iff, ogetOwn_spinePairs_nodup ids 0 hnd x j]
      constructor
      · rintro ⟨k, hk, rfl⟩
        simpa using hk
      · intro hj
        exact ⟨j, hj, by omega⟩
    refine ⟨?_, hbij, ?_⟩
    · have hg : getSpine (mkSpineContent ids)
          = buildSpine (ids.map (fun s => .obj [("@idref", .str s)])) 0 [] := rfl
      rw [hg, buildSpine_map]
    · intro zip root man hres
      have hok : ∀ x ∈ rawKeys (spinePairs ids 0), isArrayIndex x = false := by
        intro x hx
        rw [rawKeys_spinePairs ids 0] at hx
        exact (hgood x hx).1
      have hlist : dedupFirst (okeys (spineAux ids 0 [])) = ids := by
        rw [hsp, okeys_of_good _ hok, rawKeys_spinePairs ids 0,
          dedupFirst_of_nodup ids hnd]
      have hrs : resolveSections zip root man (spineAux ids 0 []) none
          = mapE (resolveSection zip root man) ids := by
        unfold resolveSections
        rw [hlist]
      obtain ⟨secs, hsecs, hlen⟩ := mapE_ok_of_all _ ids hres
      refine ⟨secs, by rw [hrs, hsecs], hlen, ?_⟩
      intro j x
      rw [hbij x j]
      constructor
      · intro hj
        obtain ⟨b, hb, hfb⟩ := mapE_ok_get _ ids secs hsecs j x hj
        exact ⟨b, hb, resolveSection_ok_id zip root man x b hfb⟩
      · rintro ⟨s, hs, hsid⟩
        obtain ⟨a, ha, hfa⟩ := mapE_get_ok _ ids secs hsecs j s hs
        have hax : a = x := by
          rw [← hsid, resolveSection_ok_id zip root man a s hfa]
        exact hax ▸ ha
  · intro ids zip root man hres
    have hsub : ∀ y ∈ dedupFirst (okeys (spineAux ids 0 [])), y ∈ ids := by
      intro y hy
      have h1 := mem_okeys_sub _ y (dedupAux_subset _ [] y hy)
      rcases rawKeys_spineAux_subset ids 0 [] y h1 with h | h
      · cases h
      · exact h
    obtain ⟨secs, hsecs, _⟩ := mapE_ok_of_all (resolveSection zip root man)
      (dedupFirst (okeys (spineAux ids 0 []))) (fun a ha => hres a (hsub a ha))
    exact ⟨secs, hsecs⟩

/-- Witness for C4's amended claim at the example container's two-entry
spine, including a duplicate-idref spine for the no-crash conjunct. -/
theorem C4_spine_bijection_sections_witness :
    getSpine (mkSpineContent ["chap1", "chap2"]) = .ok [("chap1", 0), ("chap2", 1)] ∧
    (oget [("chap1", 0), ("chap2", 1)] "chap2" = .idx 1 ↔
      ["chap1", "chap2"].get? 1 = some "chap2") ∧
    (∃ secs, resolveSections eZip "OEBPS/" eDoc.manifest
      (spineAux ["chap1", "chap2"] 0 []) none = .ok secs ∧
      secs.length = 2 ∧
      (∀ j x, oget (spineAux ["chap1", "chap2"] 0 []) x = .idx j ↔
        ∃ s, secs.get? j = some s ∧ s.id = x)) ∧
    (∃ secs, resolveSections eZip "OEBPS/" eDoc.manifest
      (spineAux ["chap1", "chap1", "chap2"] 0 []) none = .ok secs) := by
  have hres : ∀ id ∈ ["chap1", "chap2"],
      ∃ s, resolveSection eZip "OEBPS/" eDoc.manifest id = .ok s := by
    intro id hid
    rcases List.mem_cons.mp hid with rfl | hid2
    · exact ⟨⟨"chap1", "HTML1"⟩, rfl⟩
    · rcases List.mem_cons.mp hid2 with rfl | hid3
      · exact ⟨⟨"chap2", "HTML2"⟩, rfl⟩
      · cases hid3
  have hresd : ∀ id ∈ ["chap1", "chap1", "chap2"],
      ∃ s, resolveSection eZip "OEBPS/" eDoc.manifest id = .ok s := by
    intro id hid
    rcases List.mem_cons.mp hid with rfl | hid2
    · exact ⟨⟨"chap1", "HTML1"⟩, rfl⟩
    · exact hres id hid2
  have hmain := C4_spine_bijection_sections.1 ["chap1", "chap2"] (by decide) (by decide)
  refine ⟨hmain.1, hmain.2.1 "chap2" 1, ?_, ?_⟩
  · obtain ⟨secs, h1, h2, h3⟩ := hmain.2.2 eZip "OEBPS/" eDoc.manifest hres
    exact ⟨secs, h1, h2, h3⟩
  · exact C4_spine_bijection_sections.2 ["chap1", "chap1", "chap2"]
      eZip "OEBPS/" eDoc.manifest hresd

end EpubMD
